import Mathlib

/-!
Shallow embedding of the text segmentation, slugification and tag
rendering core of jrnl (file src/jrnl/util.py). Text is modelled as a
list of Unicode code points. Character classes that the Python code
takes from its standard library (the whitespace set of str.strip, the
sets string.punctuation and string.whitespace, the classes of the re
module) are spelled out as explicit sets of code points.
-/

/-- Code points of a string literal, used to state concrete examples. -/
def codes (s : String) : List Nat := s.toList.map Char.toNat

/-- The Python unicode whitespace class: the code points stripped by
str.strip and matched by the whitespace class of the re module. -/
def pyIsSpaceP (n : Nat) : Prop :=
  n = 9 ∨ n = 10 ∨ n = 11 ∨ n = 12 ∨ n = 13 ∨ (28 ≤ n ∧ n ≤ 31) ∨ n = 32 ∨
  n = 133 ∨ n = 160 ∨ n = 5760 ∨ (8192 ≤ n ∧ n ≤ 8202) ∨ n = 8232 ∨
  n = 8233 ∨ n = 8239 ∨ n = 8287 ∨ n = 12288

instance instDecPyIsSpaceP (n : Nat) : Decidable (pyIsSpaceP n) := by
  unfold pyIsSpaceP; exact inferInstance

def pyIsSpaceB (n : Nat) : Bool := decide (pyIsSpaceP n)

/-- Python str.lstrip with no argument: drop leading whitespace. -/
def pyLstrip (l : List Nat) : List Nat := l.dropWhile pyIsSpaceB

/-- Python str.rstrip with no argument: drop trailing whitespace. -/
def pyRstrip (l : List Nat) : List Nat := (l.reverse.dropWhile pyIsSpaceB).reverse

/-- Python str.strip with no argument: drop whitespace on both ends. -/
def pyStrip (l : List Nat) : List Nat := pyRstrip (pyLstrip l)

/-- The sentence terminal class of SENTENCE_SPLITTER in src/jrnl/util.py. -/
def isSentTerminalP (n : Nat) : Prop :=
  n = 46 ∨ n = 33 ∨ n = 63 ∨ n = 8252 ∨ n = 8253 ∨ n = 8263 ∨ n = 8264 ∨
  n = 8265 ∨ n = 12290 ∨ n = 65106 ∨ n = 65111 ∨ n = 65281 ∨ n = 65294 ∨
  n = 65311 ∨ n = 65377

instance instDecIsSentTerminalP (n : Nat) : Decidable (isSentTerminalP n) := by
  unfold isSentTerminalP; exact inferInstance

/-- The optional right quote class of SENTENCE_SPLITTER. -/
def isCloseQuoteP (n : Nat) : Prop := n = 39 ∨ n = 8217 ∨ n = 34 ∨ n = 8221

instance instDecIsCloseQuoteP (n : Nat) : Decidable (isCloseQuoteP n) := by
  unfold isCloseQuoteP; exact inferInstance

/-- The closing bracket class of SENTENCE_SPLITTER. -/
def isCloseBracketP (n : Nat) : Prop := n = 93 ∨ n = 41

instance instDecIsCloseBracketP (n : Nat) : Decidable (isCloseBracketP n) := by
  unfold isCloseBracketP; exact inferInstance

def isCloseBracketB (n : Nat) : Bool := decide (isCloseBracketP n)

/-- The optional-quote step of the SENTENCE_SPLITTER pattern: consume one
right quote if present, returning how many code points were consumed and
the remainder. -/
def quoteStep (l : List Nat) : Nat × List Nat :=
  match l with
  | [] => (0, [])
  | q :: r => if isCloseQuoteP q then (1, r) else (0, q :: r)

/-- A match of the SENTENCE_SPLITTER pattern anchored at the head of the
list: a sentence terminal, an optional right quote, any number of closing
brackets, then one or more whitespace code points. Returns the length of
the match (greedy, as the re module matches this pattern). -/
def sentMatchHead (l : List Nat) : Option Nat :=
  match l with
  | [] => none
  | c :: rest =>
    if isSentTerminalP c then
      let qr := quoteStep rest
      let bs := qr.2.takeWhile isCloseBracketB
      let r2 := qr.2.dropWhile isCloseBracketB
      let ws := r2.takeWhile pyIsSpaceB
      if ws.length = 0 then none else some (1 + qr.1 + bs.length + ws.length)
    else none

/-- re.search for SENTENCE_SPLITTER: the end position of the leftmost
match, as sep.end() returns it in split_title. -/
def sentSearchEnd : List Nat → Option Nat
  | [] => none
  | c :: rest =>
    match sentMatchHead (c :: rest) with
    | some len => some len
    | none => (sentSearchEnd rest).map (· + 1)

/-- re.search for SENTENCE_SPLITTER_ONLY_NEWLINE: the end position of the
first newline, that is its index plus one. -/
def newlineSearchEnd : List Nat → Option Nat
  | [] => none
  | c :: rest => if c = 10 then some 1 else (newlineSearchEnd rest).map (· + 1)

/-- split_title from src/jrnl/util.py: look for a newline in the
leading-stripped text, otherwise for the sentence boundary pattern in the
original text; the match end indexes the original text in both cases. If
nothing is found the text is returned whole, with an empty body. -/
def split_title (text : List Nat) : List Nat × List Nat :=
  match newlineSearchEnd (pyLstrip text) with
  | some e => (pyStrip (text.take e), pyStrip (text.drop e))
  | none =>
    match sentSearchEnd text with
    | some e => (pyStrip (text.take e), pyStrip (text.drop e))
    | none => (text, [])

/-- The sentence boundary pattern as the spec words it, for comparison
with the implementation: a terminal punctuation code point, optionally
followed by one closing quote, optionally followed by closing brackets,
followed by at least one whitespace code point (here the list is the
suffix of the text that starts at the candidate position). -/
def SpecSentenceBoundary (l : List Nat) : Prop :=
  ∃ (c : Nat) (qs bs : List Nat) (w : Nat) (rest : List Nat),
    l = c :: (qs ++ bs ++ w :: rest) ∧ isSentTerminalP c ∧ qs.length ≤ 1 ∧
    (∀ q ∈ qs, isCloseQuoteP q) ∧ (∀ b ∈ bs, isCloseBracketP b) ∧ pyIsSpaceP w

/-- NFKD decomposition of unicodedata.normalize, modelled as a finite
table over the code points exercised in this development: the accented
Latin letters eacute and Eacute decompose into the base letter followed
by the combining acute accent (code point 769); every other modelled code
point is its own decomposition. -/
def nfkdCp (n : Nat) : List Nat :=
  if n = 201 then [69, 769] else if n = 233 then [101, 769] else [n]

def nfkd (l : List Nat) : List Nat := (l.map nfkdCp).flatten

/-- The word-character class of the re module (alphanumeric or underscore),
modelled over ASCII plus the non-ASCII letters used in this development
(Eacute, eacute, Oslash, oslash). -/
def isWordP (n : Nat) : Prop :=
  (48 ≤ n ∧ n ≤ 57) ∨ (65 ≤ n ∧ n ≤ 90) ∨ (97 ≤ n ∧ n ≤ 122) ∨ n = 95 ∨
  n = 201 ∨ n = 233 ∨ n = 216 ∨ n = 248

instance instDecIsWordP (n : Nat) : Decidable (isWordP n) := by
  unfold isWordP; exact inferInstance

/-- The character class kept by the first substitution in slugify: word
characters, whitespace and the hyphen. -/
def slugKeepP (n : Nat) : Prop := isWordP n ∨ pyIsSpaceP n ∨ n = 45

instance instDecSlugKeepP (n : Nat) : Decidable (slugKeepP n) := by
  unfold slugKeepP; exact inferInstance

def slugKeepB (n : Nat) : Bool := decide (slugKeepP n)

/-- Python str.lower on one code point, modelled over ASCII plus the
modelled non-ASCII letters. -/
def lowerCp (n : Nat) : Nat :=
  if 65 ≤ n ∧ n ≤ 90 then n + 32
  else if n = 201 then 233
  else if n = 216 then 248
  else n

/-- The second substitution of slugify: every maximal run of hyphens and
whitespace becomes a single hyphen. The flag records whether the scan is
inside such a run. -/
def collapseRun : List Nat → Bool → List Nat
  | [], _ => []
  | c :: rest, inRun =>
    if pyIsSpaceP c ∨ c = 45 then
      if inRun then collapseRun rest true else 45 :: collapseRun rest true
    else c :: collapseRun rest false

/-- The head of the list, if any, is not a hyphen. -/
def headNot45 : List Nat → Prop
  | [] => True
  | c :: _ => c ≠ 45

/-- No two adjacent hyphens occur in the list. -/
def noAdj45 : List Nat → Prop
  | a :: b :: r => ¬ (a = 45 ∧ b = 45) ∧ noAdj45 (b :: r)
  | _ => True

/-- slugify from src/jrnl/util.py: NFKD normalization, removal of the
characters that are not word characters, whitespace or hyphens, strip,
lowercase, then collapsing of hyphen and whitespace runs into single
hyphens. -/
def slugify (l : List Nat) : List Nat :=
  collapseRun ((pyStrip ((nfkd l).filter slugKeepB)).map lowerCp) false

/-- ASCII uppercase of a code point list, as str.upper acts on the ASCII
color names passed to colorize. -/
def pyUpper (l : List Nat) : List Nat :=
  l.map (fun n => if 97 ≤ n ∧ n ≤ 122 then n - 32 else n)

/-- The colorama Fore attribute table, modelled from the colorama library
(external to this repository): attribute name paired with its ANSI escape
sequence. -/
def foreTable : List (List Nat × List Nat) :=
  [(codes ("BLACK"), codes ("\x1b[30m")),
   (codes ("RED"), codes ("\x1b[31m")),
   (codes ("GREEN"), codes ("\x1b[32m")),
   (codes ("YELLOW"), codes ("\x1b[33m")),
   (codes ("BLUE"), codes ("\x1b[34m")),
   (codes ("MAGENTA"), codes ("\x1b[35m")),
   (codes ("CYAN"), codes ("\x1b[36m")),
   (codes ("WHITE"), codes ("\x1b[37m")),
   (codes ("RESET"), codes ("\x1b[39m")),
   (codes ("LIGHTBLACK_EX"), codes ("\x1b[90m")),
   (codes ("LIGHTRED_EX"), codes ("\x1b[91m")),
   (codes ("LIGHTGREEN_EX"), codes ("\x1b[92m")),
   (codes ("LIGHTYELLOW_EX"), codes ("\x1b[93m")),
   (codes ("LIGHTBLUE_EX"), codes ("\x1b[94m")),
   (codes ("LIGHTMAGENTA_EX"), codes ("\x1b[95m")),
   (codes ("LIGHTCYAN_EX"), codes ("\x1b[96m")),
   (codes ("LIGHTWHITE_EX"), codes ("\x1b[97m"))]

/-- getattr of colorama.Fore with default None: look the attribute name
up in the modelled table. -/
def coloramaFore (name : List Nat) : Option (List Nat) :=
  (foreTable.find? (fun p => p.1 == name)).map (fun p => p.2)

def STYLE_BRIGHT : List Nat := codes ("\x1b[1m")

def STYLE_RESET_ALL : List Nat := codes ("\x1b[0m")

def FORE_RESET : List Nat := codes ("\x1b[39m")

/-- colorize from src/jrnl/util.py: wrap the string in the escape codes of
the named color, in bright style when bold is set; return it unmodified
when the name does not resolve to a colorama Fore attribute. -/
def colorize (s : List Nat) (color : List Nat) (bold : Bool) : List Nat :=
  match coloramaFore (pyUpper color) with
  | none => s
  | some e =>
    if bold = false then e ++ s ++ FORE_RESET
    else STYLE_BRIGHT ++ e ++ s ++ STYLE_RESET_ALL

/-- The configuration values read by highlight_tags_with_background_color:
the highlight flag, the tag symbol set, and the color name configured for
tags. -/
structure Config where
  highlight : Bool
  tagsymbols : List Nat
  colorsTags : List Nat

/-- The body of colorized_text_generator for one fragment: empty
fragments yield nothing, a fragment whose first code point is a tag
symbol is colorized with the tag color in bold, and any other fragment is
colorized with the base color, bold only for titles. -/
def genPart (cfg : Config) (color : List Nat) (is_title : Bool)
    (part : List Nat) : Option (List Nat × List Nat) :=
  match part with
  | [] => none
  | c :: _ =>
    if c ∈ cfg.tagsymbols then some (colorize part cfg.colorsTags true, part)
    else some (colorize part color is_title, part)

/-- colorized_text_generator from src/jrnl/util.py: skip empty fragments,
pair every other fragment with its colorized form. -/
def colorized_text_generator (cfg : Config) (color : List Nat)
    (is_title : Bool) (fragments : List (List Nat)) :
    List (List Nat × List Nat) :=
  fragments.filterMap (genPart cfg color is_title)

/-- The punctuation plus whitespace set from the Python string module
(both are ASCII sets), as used in the reassembly condition. -/
def isPunctWsAsciiP (n : Nat) : Prop :=
  (33 ≤ n ∧ n ≤ 47) ∨ (58 ≤ n ∧ n ≤ 64) ∨ (91 ≤ n ∧ n ≤ 96) ∨
  (123 ≤ n ∧ n ≤ 126) ∨ n = 32 ∨ n = 9 ∨ n = 10 ∨ n = 13 ∨ n = 11 ∨ n = 12

instance instDecIsPunctWsAsciiP (n : Nat) : Decidable (isPunctWsAsciiP n) := by
  unfold isPunctWsAsciiP; exact inferInstance

def isPunctWsAsciiB (n : Nat) : Bool := decide (isPunctWsAsciiP n)

/-- The no-leading-space condition of the reassembly loop in
highlight_tags_with_background_color, on the previous original piece and
the current original piece. The Python conjuncts short-circuit: an empty
piece satisfies the first conjunct, so the head access in the last
conjunct is reached on nonempty pieces only; the match value on the empty
list is therefore irrelevant to the disjunction. -/
def pieceNoSpaceB (cfg : Config) (prev piece : List Nat) : Bool :=
  piece.all isPunctWsAsciiB ||
  decide (prev.getLast? = some 10) ||
  (match prev with
   | [] => false
   | c :: _ => decide (c ∈ cfg.tagsymbols)) ||
  (match piece with
   | [] => true
   | c :: _ => decide (c ∈ cfg.tagsymbols))

/-- One step of the reassembly loop: the state is the accumulated final
text and the previous original piece. -/
def reassembleStep (cfg : Config) (st : List Nat × List Nat)
    (cp : List Nat × List Nat) : List Nat × List Nat :=
  if pieceNoSpaceB cfg st.2 cp.2 then (st.1 ++ cp.1, cp.2)
  else (st.1 ++ [32] ++ cp.1, cp.2)

/-- The reassembly loop of highlight_tags_with_background_color over the
generated (colorized, original) pieces, starting from empty final text
and empty previous piece. -/
def highlight_loop (cfg : Config) (pieces : List (List Nat × List Nat)) :
    List Nat :=
  (pieces.foldl (reassembleStep cfg) ([], [])).1

/-- The continuation class of a tag fragment. Modelled from the spec: the
tag pattern entry.tag_regex is defined in a module of this repository that
is not present under src; per the spec a tag continues through word-like
characters, that is non-whitespace characters that are not punctuation
other than hyphen and underscore. -/
def tagContinueP (n : Nat) : Prop :=
  ¬ pyIsSpaceP n ∧
  (¬ ((33 ≤ n ∧ n ≤ 47) ∨ (58 ≤ n ∧ n ≤ 64) ∨ (91 ≤ n ∧ n ≤ 96) ∨
      (123 ≤ n ∧ n ≤ 126)) ∨ n = 45 ∨ n = 95)

instance instDecTagContinueP (n : Nat) : Decidable (tagContinueP n) := by
  unfold tagContinueP; exact inferInstance

def tagContinueB (n : Nat) : Bool := decide (tagContinueP n)

/-- Whether a tag fragment can start here: the next code point must be a
tag continuation character, since a tag is its symbol followed by one or
more word-like characters. -/
def tagStartB : List Nat → Bool
  | [] => false
  | d :: _ => tagContinueB d

/-- Modelled from the spec: the capturing split of the text at tag
fragments performed with entry.tag_regex, whose defining module is not
under src. A tag fragment is a tag symbol followed by one or more
word-like characters, taken greedily; plain fragments are the stretches
between tag fragments, so that all fragments together carry the whole
text. The fuel argument starts at the length of the text and never runs
out. -/
def tagSplitF (syms : List Nat) : Nat → List Nat → List Nat → List (List Nat)
  | 0, acc, l => [acc.reverse ++ l]
  | _ + 1, acc, [] => [acc.reverse]
  | fuel + 1, acc, c :: rest =>
    if decide (c ∈ syms) && tagStartB rest then
      acc.reverse :: (c :: rest.takeWhile tagContinueB) ::
        tagSplitF syms fuel [] (rest.dropWhile tagContinueB)
    else tagSplitF syms fuel (c :: acc) rest

/-- Modelled from the spec: re.split with the capturing tag pattern. -/
def tag_regex_split (syms : List Nat) (text : List Nat) : List (List Nat) :=
  tagSplitF syms text.length [] text

/-- highlight_tags_with_background_color from src/jrnl/util.py, with the
entry and its journal configuration reduced to the configuration values it
reads. When the highlight flag is off the text is returned unmodified;
otherwise the text is split at tag fragments, the fragments are colorized
and reassembled, and the result is left-stripped. -/
def highlight_tags_with_background_color (cfg : Config) (text : List Nat)
    (color : List Nat) (is_title : Bool) : List Nat :=
  if cfg.highlight then
    pyLstrip (highlight_loop cfg
      (colorized_text_generator cfg color is_title
        (tag_regex_split cfg.tagsymbols text)))
  else text

/-- First spec condition on the previous fragment: it ended with a
newline. There is no previous fragment before the first one. -/
def prevEndsNL : Option (List Nat) → Prop
  | some p => p.getLast? = some 10
  | none => False

instance instDecPrevEndsNL (o : Option (List Nat)) : Decidable (prevEndsNL o) := by
  cases o <;> unfold prevEndsNL <;> exact inferInstance

/-- Second spec condition on the previous fragment: it started with a tag
symbol. -/
def prevStartsTag (cfg : Config) : Option (List Nat) → Prop
  | some (c :: _) => c ∈ cfg.tagsymbols
  | _ => False

instance instDecPrevStartsTag (cfg : Config) (o : Option (List Nat)) :
    Decidable (prevStartsTag cfg o) := by
  unfold prevStartsTag
  rcases o with _ | ⟨_ | ⟨c, p⟩⟩ <;> exact inferInstance

/-- Spec condition on the current fragment: it starts with a tag symbol. -/
def fragStartsTag (cfg : Config) : List Nat → Prop
  | c :: _ => c ∈ cfg.tagsymbols
  | [] => False

instance instDecFragStartsTag (cfg : Config) (l : List Nat) :
    Decidable (fragStartsTag cfg l) := by
  unfold fragStartsTag
  rcases l with _ | ⟨c, p⟩ <;> exact inferInstance

/-- The no-space-inserted condition as the claim words it: the fragment is
entirely punctuation or whitespace, or the previous fragment ended with a
newline, or the previous fragment started with a tag symbol, or the
current fragment starts with a tag symbol. -/
def specNoSpaceP (cfg : Config) (prev : Option (List Nat))
    (piece : List Nat) : Prop :=
  (∀ c ∈ piece, isPunctWsAsciiP c) ∨ prevEndsNL prev ∨
  prevStartsTag cfg prev ∨ fragStartsTag cfg piece

instance instDecSpecNoSpaceP (cfg : Config) (prev : Option (List Nat))
    (piece : List Nat) : Decidable (specNoSpaceP cfg prev piece) := by
  unfold specNoSpaceP
  exact inferInstance

/-- The per-fragment colorization as the claim words it: tag fragments
take the tag color in bold, other fragments the base color, bold only for
titles. -/
def specColorizeFrag (cfg : Config) (color : List Nat) (is_title : Bool)
    (f : List Nat) : List Nat :=
  match f with
  | [] => f
  | c :: _ =>
    if c ∈ cfg.tagsymbols then colorize f cfg.colorsTags true
    else colorize f color is_title

/-- The spec-side reassembly: one space is inserted before each colorized
fragment unless the no-space condition holds, tracking the previous
original fragment. -/
def specRenderAux (cfg : Config) (color : List Nat) (is_title : Bool) :
    Option (List Nat) → List (List Nat) → List Nat
  | _, [] => []
  | prev, f :: rest =>
    (if specNoSpaceP cfg prev f then [] else [32]) ++
      specColorizeFrag cfg color is_title f ++
      specRenderAux cfg color is_title (some f) rest

/-- The spec-side rendered result: the reassembly of all fragments, with
the leading whitespace of the final result trimmed. -/
def specRender (cfg : Config) (color : List Nat) (is_title : Bool)
    (frags : List (List Nat)) : List Nat :=
  pyLstrip (specRenderAux cfg color is_title none frags)

theorem newlineSearchEnd_eq_none (l : List Nat) :
    newlineSearchEnd l = none ↔ (10 : Nat) ∉ l := by
  induction l with
  | nil => simp [newlineSearchEnd]
  | cons c rest ih =>
    by_cases hc : c = 10
    · subst hc; simp [newlineSearchEnd]
    · simp [newlineSearchEnd, hc, Option.map_eq_none', ih, Ne.symm hc]

theorem newlineSearchEnd_of_mem (l : List Nat) (h : (10 : Nat) ∈ l) :
    newlineSearchEnd l = some (l.indexOf 10 + 1) := by
  induction l with
  | nil => cases h
  | cons c rest ih =>
    by_cases hc : c = 10
    · subst hc; simp [newlineSearchEnd, List.indexOf_cons]
    · have hm : (10 : Nat) ∈ rest := by
        rcases List.mem_cons.mp h with h1 | h1
        · exact absurd h1.symm hc
        · exact h1
      have hb : (c == 10) = false := by simp [hc]
      simp [newlineSearchEnd, hc, ih hm, List.indexOf_cons, hb]

/-- C1 counterexample: on input consisting of a single space, split_title
returns the space itself as the title, not the trimmed empty string the
claim asserts. -/
theorem claim_C1_counterexample :
    ¬ (split_title (codes (" ")) = (pyStrip (codes (" ")), [])) := by decide

/-- C1 amended: when neither a newline in the leading-stripped text nor
the sentence boundary pattern is found, split_title returns the text
unmodified, not trimmed, together with an empty body; in particular on
whitespace-only input the title keeps the whitespace. -/
theorem claim_C1_amended :
    ∀ text : List Nat, (10 : Nat) ∉ pyLstrip text → sentSearchEnd text = none →
      split_title text = (text, []) := by
  intro t h1 h2
  unfold split_title
  rw [(newlineSearchEnd_eq_none _).mpr h1, h2]

theorem claim_C1_amended_witness :
    ((10 : Nat) ∉ pyLstrip (codes ("  hiya  "))) ∧
    sentSearchEnd (codes ("  hiya  ")) = none ∧
    split_title (codes ("  hiya  ")) = (codes ("  hiya  "), []) :=
  ⟨by decide, by decide, claim_C1_amended _ (by decide) (by decide)⟩

/-- C2: when the leading-stripped text contains a newline, split_title
splits the original text at the end position of the first newline of the
stripped text (the newline boundary takes priority over the punctuation
pattern), trimming both parts; and the concrete two-line example splits
at its line break. -/
theorem claim_C2 :
    (∀ text : List Nat, (10 : Nat) ∈ pyLstrip text →
      split_title text =
        (pyStrip (text.take ((pyLstrip text).indexOf 10 + 1)),
         pyStrip (text.drop ((pyLstrip text).indexOf 10 + 1)))) ∧
    split_title (codes ("Line one\nLine two")) =
      (codes ("Line one"), codes ("Line two")) := by
  constructor
  · intro t h
    unfold split_title
    rw [newlineSearchEnd_of_mem _ h]
  · decide

theorem claim_C2_witness :
    ((10 : Nat) ∈ pyLstrip (codes ("a\nb"))) ∧
    split_title (codes ("a\nb")) =
      (pyStrip ((codes ("a\nb")).take ((pyLstrip (codes ("a\nb"))).indexOf 10 + 1)),
       pyStrip ((codes ("a\nb")).drop ((pyLstrip (codes ("a\nb"))).indexOf 10 + 1))) :=
  ⟨by decide, claim_C2.1 _ (by decide)⟩

theorem tagSplitF_flatten (syms : List Nat) :
    ∀ (fuel : Nat) (acc l : List Nat),
      (tagSplitF syms fuel acc l).flatten = acc.reverse ++ l := by
  intro fuel
  induction fuel with
  | zero => intro acc l; simp [tagSplitF]
  | succ n ih =>
    intro acc l
    cases l with
    | nil => simp [tagSplitF]
    | cons c rest =>
      by_cases h : (decide (c ∈ syms) && tagStartB rest) = true
      · simp only [tagSplitF, h, if_true, List.flatten_cons, ih]
        simp [← List.append_assoc, List.takeWhile_append_dropWhile]
      · simp only [tagSplitF, h, if_false, Bool.false_eq_true, ite_false, ih]
        simp

/-- C6: the modelled capturing split at tag fragments loses no text:
concatenating the fragments in order gives back the original text. -/
theorem claim_C6 :
    ∀ (syms text : List Nat), (tag_regex_split syms text).flatten = text := by
  intro syms text
  unfold tag_regex_split
  rw [tagSplitF_flatten]
  simp

/-- C5 counterexample: the fragments of the example text are not the
whitespace-free values the claim lists; the plain fragments keep their
original spaces. -/
theorem claim_C5_counterexample :
    ¬ (tag_regex_split [64, 35] (codes ("Called my friend @Bob about #project-x.")) =
      [codes ("Called my friend"), codes ("@Bob"), codes ("about"),
       codes ("#project-x"), codes (".")]) := by decide

/-- C5 amended: the example splits into plain and tag fragments whose
plain members keep their original whitespace, and the rendered result
(with unresolvable color names, so that colorization is the identity) is
exactly the original text: one space before the two tags and before the
word about, and no space before the final period. -/
theorem claim_C5_amended :
    tag_regex_split [64, 35] (codes ("Called my friend @Bob about #project-x.")) =
      [codes ("Called my friend "), codes ("@Bob"), codes (" about "),
       codes ("#project-x"), codes (".")] ∧
    highlight_tags_with_background_color ⟨true, [64, 35], codes ("NONE")⟩
      (codes ("Called my friend @Bob about #project-x.")) (codes ("NONE")) false =
      codes ("Called my friend @Bob about #project-x.") :=
  ⟨by decide, by decide⟩

/-- C8: when the highlight flag of the configuration is false, the
highlight function returns its input text unchanged. -/
theorem claim_C8 :
    ∀ (cfg : Config) (text color : List Nat) (is_title : Bool),
      cfg.highlight = false →
        highlight_tags_with_background_color cfg text color is_title = text := by
  intro cfg t c ti h
  unfold highlight_tags_with_background_color
  rw [h]
  simp

theorem claim_C8_witness :
    Config.highlight ⟨false, [64, 35], codes ("NONE")⟩ = false ∧
    highlight_tags_with_background_color ⟨false, [64, 35], codes ("NONE")⟩
      (codes ("hi @you")) (codes ("RED")) false = codes ("hi @you") :=
  ⟨rfl, claim_C8 _ _ _ _ rfl⟩

theorem coloramaFore_ne_nil (name e : List Nat) (h : coloramaFore name = some e) :
    e ≠ [] := by
  unfold coloramaFore at h
  rw [Option.map_eq_some'] at h
  obtain ⟨p, hp, he⟩ := h
  have hmem := List.mem_of_find?_eq_some hp
  have hall : ∀ q ∈ foreTable, q.2 ≠ ([] : List Nat) := by decide
  rw [← he]
  exact hall p hmem

/-- C9: colorize never fails; when the upper-cased color name is not in
the color table (in particular the NONE sentinel) the string is returned
completely unmodified, and otherwise the result wraps the original string
in nonempty color markers, with emphasis markers when bold is set. -/
theorem claim_C9 :
    (∀ (s color : List Nat) (bold : Bool),
      coloramaFore (pyUpper color) = none → colorize s color bold = s) ∧
    (∀ (s color : List Nat) (bold : Bool) (e : List Nat),
      coloramaFore (pyUpper color) = some e →
        e ≠ [] ∧
        colorize s color bold =
          (if bold then STYLE_BRIGHT ++ e else e) ++ s ++
            (if bold then STYLE_RESET_ALL else FORE_RESET)) ∧
    (∀ (s : List Nat) (bold : Bool), colorize s (codes ("NONE")) bold = s) := by
  refine ⟨?_, ?_, ?_⟩
  · intro s c b h
    unfold colorize
    rw [h]
  · intro s c b e h
    refine ⟨coloramaFore_ne_nil _ _ h, ?_⟩
    unfold colorize
    rw [h]
    cases b <;> simp
  · intro s b
    unfold colorize
    have h : coloramaFore (pyUpper (codes ("NONE"))) = none := by decide
    rw [h]

theorem claim_C9_witness :
    coloramaFore (pyUpper (codes ("nope"))) = none ∧
    colorize (codes ("hi")) (codes ("nope")) true = codes ("hi") ∧
    coloramaFore (pyUpper (codes ("red"))) = some (codes ("\x1b[31m")) ∧
    colorize (codes ("hi")) (codes ("red")) false =
      (if false then STYLE_BRIGHT ++ codes ("\x1b[31m") else codes ("\x1b[31m")) ++
        codes ("hi") ++ (if false then STYLE_RESET_ALL else FORE_RESET) :=
  ⟨by decide, claim_C9.1 _ _ _ (by decide), by decide,
    (claim_C9.2.1 _ _ _ _ (by decide)).2⟩

/-- C10: every (colorized, original) pair produced by the generator has a
nonempty original piece: empty fragments are filtered out before
classification, so the head accesses of the reassembly loop are defined
for every fragment list. -/
theorem claim_C10 :
    ∀ (cfg : Config) (color : List Nat) (is_title : Bool)
      (fragments : List (List Nat)) (p : List Nat × List Nat),
      p ∈ colorized_text_generator cfg color is_title fragments → p.2 ≠ [] := by
  intro cfg color ti frags p hp
  unfold colorized_text_generator at hp
  rw [List.mem_filterMap] at hp
  obtain ⟨f, _, he⟩ := hp
  cases f with
  | nil => simp [genPart] at he
  | cons c r =>
    simp only [genPart] at he
    split_ifs at he <;>
      (have h2 := Option.some.inj he; subst h2; simp)

theorem claim_C10_witness :
    ((codes ("hi"), codes ("hi")) ∈
      colorized_text_generator (Config.mk true [64, 35] (codes ("NONE")))
        (codes ("NONE")) false [[], codes ("hi")]) ∧
    (codes ("hi"), codes ("hi")).2 ≠ [] :=
  ⟨by decide,
    claim_C10 (Config.mk true [64, 35] (codes ("NONE"))) (codes ("NONE")) false
      [[], codes ("hi")] (codes ("hi"), codes ("hi")) (by decide)⟩

theorem isCloseBracketB_eq_true (n : Nat) :
    isCloseBracketB n = true ↔ isCloseBracketP n := by
  simp [isCloseBracketB]

theorem pyIsSpaceB_eq_true (n : Nat) : pyIsSpaceB n = true ↔ pyIsSpaceP n := by
  simp [pyIsSpaceB]

theorem space_not_quote (n : Nat) (h : pyIsSpaceP n) : ¬ isCloseQuoteP n := by
  unfold pyIsSpaceP at h
  unfold isCloseQuoteP
  omega

theorem space_not_bracket (n : Nat) (h : pyIsSpaceP n) : ¬ isCloseBracketP n := by
  unfold pyIsSpaceP at h
  unfold isCloseBracketP
  omega

theorem bracket_not_quote (n : Nat) (h : isCloseBracketP n) : ¬ isCloseQuoteP n := by
  unfold isCloseBracketP at h
  unfold isCloseQuoteP
  omega

theorem spec_of_tail (c : Nat) (qs r1 : List Nat) (hc : isSentTerminalP c)
    (hqlen : qs.length ≤ 1) (hqs : ∀ q ∈ qs, isCloseQuoteP q)
    (hlen : (List.takeWhile pyIsSpaceB (List.dropWhile isCloseBracketB r1)).length ≠ 0) :
    SpecSentenceBoundary (c :: (qs ++ r1)) := by
  cases hr2 : r1.dropWhile isCloseBracketB with
  | nil => rw [hr2] at hlen; simp at hlen
  | cons w t =>
    by_cases hw : pyIsSpaceB w = true
    · refine ⟨c, qs, r1.takeWhile isCloseBracketB, w, t, ?_, hc, hqlen, hqs, ?_, ?_⟩
      · have hjoin : List.takeWhile isCloseBracketB r1 ++ (w :: t) = r1 := by
          rw [← hr2]
          exact List.takeWhile_append_dropWhile _ _
        rw [List.append_assoc, hjoin]
      · intro b hb
        exact (isCloseBracketB_eq_true b).mp (List.mem_takeWhile_imp hb)
      · exact (pyIsSpaceB_eq_true w).mp hw
    · rw [hr2, List.takeWhile_cons_of_neg hw] at hlen
      simp at hlen

theorem sentMatchHead_isSome_iff (l : List Nat) :
    (sentMatchHead l).isSome = true ↔ SpecSentenceBoundary l := by
  constructor
  · intro h
    cases l with
    | nil => simp [sentMatchHead] at h
    | cons c rest =>
      simp only [sentMatchHead] at h
      by_cases hc : isSentTerminalP c
      · rw [if_pos hc] at h
        cases rest with
        | nil => simp [quoteStep] at h
        | cons q r =>
          by_cases hq : isCloseQuoteP q
          · rw [show quoteStep (q :: r) = (1, r) from by simp [quoteStep, hq]] at h
            by_cases hlen :
                (List.takeWhile pyIsSpaceB (List.dropWhile isCloseBracketB r)).length = 0
            · rw [if_pos hlen] at h; simp at h
            · exact spec_of_tail c [q] r hc (by simp) (by simp [hq]) hlen
          · rw [show quoteStep (q :: r) = (0, q :: r) from by simp [quoteStep, hq]] at h
            by_cases hlen :
                (List.takeWhile pyIsSpaceB (List.dropWhile isCloseBracketB (q :: r))).length = 0
            · rw [if_pos hlen] at h; simp at h
            · exact spec_of_tail c [] (q :: r) hc (by simp) (by simp) hlen
      · rw [if_neg hc] at h
        simp at h
  · intro h
    obtain ⟨c, qs, bs, w, rest, rfl, hc, hqlen, hqs, hbs, hw⟩ := h
    have hbsB : ∀ b ∈ bs, isCloseBracketB b = true := fun b hb =>
      (isCloseBracketB_eq_true b).mpr (hbs b hb)
    have hwB : pyIsSpaceB w = true := (pyIsSpaceB_eq_true w).mpr hw
    have hwnotbr : ¬ isCloseBracketB w = true := by
      simp [isCloseBracketB]
      exact space_not_bracket w hw
    have hdrop : (bs ++ w :: rest).dropWhile isCloseBracketB = w :: rest := by
      rw [List.dropWhile_append_of_pos hbsB, List.dropWhile_cons_of_neg hwnotbr]
    have htake : ((bs ++ w :: rest).dropWhile isCloseBracketB).takeWhile pyIsSpaceB =
        w :: (rest.takeWhile pyIsSpaceB) := by
      rw [hdrop, List.takeWhile_cons_of_pos hwB]
    cases qs with
    | nil =>
      have hqstep : quoteStep (bs ++ w :: rest) = (0, bs ++ w :: rest) := by
        cases bs with
        | nil => simp [quoteStep, space_not_quote w hw]
        | cons b bs2 =>
          simp [quoteStep, bracket_not_quote b (hbs b (by simp))]
      simp only [List.nil_append, sentMatchHead]
      rw [if_pos hc, hqstep]
      simp only []
      rw [htake]
      simp
    | cons q qs2 =>
      have hqs2 : qs2 = [] := by
        cases qs2 with
        | nil => rfl
        | cons x xs => simp at hqlen
      subst hqs2
      have hqq : isCloseQuoteP q := hqs q (by simp)
      have hqstep : quoteStep ([q] ++ bs ++ w :: rest) = (1, bs ++ w :: rest) := by
        simp [quoteStep, hqq]
      simp only [sentMatchHead]
      rw [if_pos hc, hqstep]
      simp only []
      rw [htake]
      simp

/-- C4: a position of the text is a sentence boundary exactly when the
suffix starting there begins with a terminal punctuation code point,
optionally one closing quote, optionally closing brackets, and then at
least one mandatory whitespace code point; consequently the period of
3.14 (followed by a digit, not whitespace) is no boundary, and the
two-sentence example splits after the first period and its space. -/
theorem claim_C4 :
    (∀ l : List Nat, (sentMatchHead l).isSome = true ↔ SpecSentenceBoundary l) ∧
    sentMatchHead (codes (".14")) = none ∧
    split_title (codes ("3.14")) = (codes ("3.14"), []) ∧
    split_title (codes ("Hello world. Foo bar.")) =
      (codes ("Hello world."), codes ("Foo bar.")) :=
  ⟨sentMatchHead_isSome_iff, by decide, by decide, by decide⟩

theorem genPart_eq_spec (cfg : Config) (color : List Nat) (t : Bool)
    (f : List Nat) (hf : f ≠ []) :
    genPart cfg color t f = some (specColorizeFrag cfg color t f, f) := by
  cases f with
  | nil => exact absurd rfl hf
  | cons c r =>
    by_cases hc : c ∈ cfg.tagsymbols <;> simp [genPart, specColorizeFrag, hc]

theorem gen_eq_map (cfg : Config) (color : List Nat) (t : Bool) :
    ∀ frags : List (List Nat), (∀ f ∈ frags, f ≠ []) →
      colorized_text_generator cfg color t frags =
        frags.map (fun f => (specColorizeFrag cfg color t f, f)) := by
  intro frags h
  induction frags with
  | nil => rfl
  | cons f rest ih =>
    have hf : f ≠ [] := h f (by simp)
    unfold colorized_text_generator at ih ⊢
    rw [List.filterMap_cons, genPart_eq_spec cfg color t f hf, List.map_cons,
      ih (fun g hg => h g (List.mem_cons_of_mem _ hg))]

theorem cond_match (cfg : Config) (prev piece : List Nat)
    (prevOpt : Option (List Nat))
    (hm : (prev = [] ∧ prevOpt = none) ∨ (prev ≠ [] ∧ prevOpt = some prev)) :
    (pieceNoSpaceB cfg prev piece = true ↔ specNoSpaceP cfg prevOpt piece) := by
  rcases hm with ⟨h1, h2⟩ | ⟨h1, h2⟩
  · subst h1; subst h2
    cases piece with
    | nil =>
      simp [pieceNoSpaceB, specNoSpaceP]
    | cons c r =>
      simp [pieceNoSpaceB, specNoSpaceP, prevEndsNL, prevStartsTag,
        fragStartsTag, isPunctWsAsciiB]
  · subst h2
    cases prev with
    | nil => exact absurd rfl h1
    | cons d pr =>
      cases piece with
      | nil =>
        simp [pieceNoSpaceB, specNoSpaceP, prevEndsNL, prevStartsTag,
          fragStartsTag, isPunctWsAsciiB]
      | cons c r =>
        simp [pieceNoSpaceB, specNoSpaceP, prevEndsNL, prevStartsTag,
          fragStartsTag, isPunctWsAsciiB, or_assoc]

theorem loop_spec (cfg : Config) (color : List Nat) (t : Bool) :
    ∀ (frags : List (List Nat)) (acc prev : List Nat)
      (prevOpt : Option (List Nat)),
      ((prev = [] ∧ prevOpt = none) ∨ (prev ≠ [] ∧ prevOpt = some prev)) →
      (∀ f ∈ frags, f ≠ []) →
      ((frags.map (fun f => (specColorizeFrag cfg color t f, f))).foldl
          (reassembleStep cfg) (acc, prev)).1 =
        acc ++ specRenderAux cfg color t prevOpt frags := by
  intro frags
  induction frags with
  | nil =>
    intro acc prev prevOpt hm hne
    simp [specRenderAux]
  | cons f rest ih =>
    intro acc prev prevOpt hm hne
    have hf : f ≠ [] := hne f (by simp)
    have hrest : ∀ g ∈ rest, g ≠ [] := fun g hg =>
      hne g (List.mem_cons_of_mem _ hg)
    rw [List.map_cons, List.foldl_cons]
    by_cases hcond : specNoSpaceP cfg prevOpt f
    · have hb : pieceNoSpaceB cfg prev f = true :=
        (cond_match cfg prev f prevOpt hm).mpr hcond
      have hstep : reassembleStep cfg (acc, prev) (specColorizeFrag cfg color t f, f) =
          (acc ++ specColorizeFrag cfg color t f, f) := by
        unfold reassembleStep
        rw [if_pos hb]
      rw [hstep, ih (acc ++ specColorizeFrag cfg color t f) f (some f)
        (Or.inr ⟨hf, rfl⟩) hrest]
      simp only [specRenderAux]
      rw [if_pos hcond]
      simp
    · have hb : pieceNoSpaceB cfg prev f = false := by
        rcases Bool.eq_false_or_eq_true (pieceNoSpaceB cfg prev f) with h | h
        · exact absurd ((cond_match cfg prev f prevOpt hm).mp h) hcond
        · exact h
      have hstep : reassembleStep cfg (acc, prev) (specColorizeFrag cfg color t f, f) =
          (acc ++ [32] ++ specColorizeFrag cfg color t f, f) := by
        unfold reassembleStep
        rw [hb]
        simp
      rw [hstep, ih (acc ++ [32] ++ specColorizeFrag cfg color t f) f (some f)
        (Or.inr ⟨hf, rfl⟩) hrest]
      simp only [specRenderAux]
      rw [if_neg hcond]
      simp

/-- C3: with highlighting enabled, for every list of nonempty fragments
the rendered result equals the spec-side reassembly: the colorized
fragments are concatenated with exactly one space inserted before each
fragment, except that no space is inserted when the fragment is entirely
punctuation or whitespace, when the previous fragment ended with a
newline, when the previous fragment started with a tag symbol, or when
the current fragment starts with a tag symbol; the leading whitespace of
the final result is trimmed. -/
theorem claim_C3 :
    ∀ (cfg : Config) (color : List Nat) (is_title : Bool)
      (frags : List (List Nat)), (∀ f ∈ frags, f ≠ []) →
      pyLstrip (highlight_loop cfg
          (colorized_text_generator cfg color is_title frags)) =
        specRender cfg color is_title frags := by
  intro cfg color t frags h
  unfold highlight_loop specRender
  rw [gen_eq_map cfg color t frags h,
    loop_spec cfg color t frags [] [] none (Or.inl ⟨rfl, rfl⟩) h]
  simp

theorem claim_C3_witness :
    (∀ f ∈ [codes ("hi "), codes ("@you"), codes (".")], f ≠ []) ∧
    pyLstrip (highlight_loop (Config.mk true [64, 35] (codes ("NONE")))
        (colorized_text_generator (Config.mk true [64, 35] (codes ("NONE")))
          (codes ("NONE")) false
          [codes ("hi "), codes ("@you"), codes (".")])) =
      specRender (Config.mk true [64, 35] (codes ("NONE"))) (codes ("NONE"))
        false [codes ("hi "), codes ("@you"), codes (".")] :=
  ⟨by decide,
    claim_C3 (Config.mk true [64, 35] (codes ("NONE"))) (codes ("NONE")) false
      [codes ("hi "), codes ("@you"), codes (".")] (by decide)⟩

theorem noAdj45_cons_of_ne (a : Nat) (X : List Nat) (ha : a ≠ 45)
    (hX : noAdj45 X) : noAdj45 (a :: X) := by
  cases X with
  | nil => trivial
  | cons b r => exact ⟨fun hab => ha hab.1, hX⟩

theorem noAdj45_cons45 (X : List Nat) (hh : headNot45 X) (hX : noAdj45 X) :
    noAdj45 (45 :: X) := by
  cases X with
  | nil => trivial
  | cons b r => exact ⟨fun hab => hh hab.2, hX⟩

theorem noAdj45_tail (a : Nat) (X : List Nat) (h : noAdj45 (a :: X)) :
    noAdj45 X := by
  cases X with
  | nil => trivial
  | cons b r => exact h.2

theorem noAdj45_head_ne (X : List Nat) (h : noAdj45 (45 :: X)) :
    headNot45 X := by
  cases X with
  | nil => trivial
  | cons b r => exact fun hb => h.1 ⟨rfl, hb⟩

theorem collapse_mem (l : List Nat) :
    ∀ (b : Bool) (c : Nat), c ∈ collapseRun l b →
      c = 45 ∨ (c ∈ l ∧ ¬ (pyIsSpaceP c ∨ c = 45)) := by
  induction l with
  | nil => intro b c hc; simp [collapseRun] at hc
  | cons a rest ih =>
    intro b c hc
    by_cases ha : pyIsSpaceP a ∨ a = 45
    · cases b with
      | true =>
        rw [show collapseRun (a :: rest) true = collapseRun rest true from by
          simp [collapseRun, ha]] at hc
        rcases ih true c hc with h | ⟨hm, hr⟩
        · exact Or.inl h
        · exact Or.inr ⟨List.mem_cons_of_mem _ hm, hr⟩
      | false =>
        rw [show collapseRun (a :: rest) false = 45 :: collapseRun rest true from by
          simp [collapseRun, ha]] at hc
        rcases List.mem_cons.mp hc with h | h
        · exact Or.inl h
        · rcases ih true c h with h2 | ⟨hm, hr⟩
          · exact Or.inl h2
          · exact Or.inr ⟨List.mem_cons_of_mem _ hm, hr⟩
    · rw [show collapseRun (a :: rest) b = a :: collapseRun rest false from by
        simp [collapseRun, ha]] at hc
      rcases List.mem_cons.mp hc with h | h
      · subst h; exact Or.inr ⟨List.mem_cons_self _ _, ha⟩
      · rcases ih false c h with h2 | ⟨hm, hr⟩
        · exact Or.inl h2
        · exact Or.inr ⟨List.mem_cons_of_mem _ hm, hr⟩

theorem collapse_noAdj (l : List Nat) :
    ∀ b : Bool, noAdj45 (collapseRun l b) ∧
      (b = true → headNot45 (collapseRun l b)) := by
  induction l with
  | nil => intro b; simp [collapseRun, noAdj45, headNot45]
  | cons a rest ih =>
    intro b
    by_cases ha : pyIsSpaceP a ∨ a = 45
    · cases b with
      | true =>
        rw [show collapseRun (a :: rest) true = collapseRun rest true from by
          simp [collapseRun, ha]]
        exact ⟨(ih true).1, fun _ => (ih true).2 rfl⟩
      | false =>
        rw [show collapseRun (a :: rest) false = 45 :: collapseRun rest true from by
          simp [collapseRun, ha]]
        refine ⟨noAdj45_cons45 _ ((ih true).2 rfl) (ih true).1, ?_⟩
        intro h
        exact absurd h (by simp)
    · have ha45 : a ≠ 45 := fun h => ha (Or.inr h)
      rw [show collapseRun (a :: rest) b = a :: collapseRun rest false from by
        simp [collapseRun, ha]]
      exact ⟨noAdj45_cons_of_ne _ _ ha45 (ih false).1, fun _ => ha45⟩

theorem collapse_id (l : List Nat) :
    ∀ b : Bool, (∀ c ∈ l, ¬ pyIsSpaceP c) → noAdj45 l →
      (b = true → headNot45 l) → collapseRun l b = l := by
  induction l with
  | nil => intro b _ _ _; simp [collapseRun]
  | cons a rest ih =>
    intro b hs hadj hhead
    by_cases ha : pyIsSpaceP a ∨ a = 45
    · have ha45 : a = 45 := by
        rcases ha with h | h
        · exact absurd h (hs a (List.mem_cons_self _ _))
        · exact h
      cases b with
      | true => exact absurd ha45 (hhead rfl)
      | false =>
        rw [show collapseRun (a :: rest) false = 45 :: collapseRun rest true from by
          simp [collapseRun, ha]]
        rw [ha45]
        subst ha45
        rw [ih true (fun c hc => hs c (List.mem_cons_of_mem _ hc))
          (noAdj45_tail _ _ hadj) (fun _ => noAdj45_head_ne _ hadj)]
    · rw [show collapseRun (a :: rest) b = a :: collapseRun rest false from by
        simp [collapseRun, ha]]
      rw [ih false (fun c hc => hs c (List.mem_cons_of_mem _ hc))
        (noAdj45_tail _ _ hadj) (fun h => absurd h (by simp))]

theorem nfkdCp_mem (c d : Nat) (hd : d ∈ nfkdCp c) : nfkdCp d = [d] := by
  by_cases h1 : c = 201
  · subst h1
    simp [nfkdCp] at hd
    rcases hd with rfl | rfl <;> decide
  · by_cases h2 : c = 233
    · subst h2
      simp [nfkdCp] at hd
      rcases hd with rfl | rfl <;> decide
    · have : d = c := by
        simp [nfkdCp, h1, h2] at hd
        exact hd
      subst this
      simp [nfkdCp, h1, h2]

theorem slug_char_facts (d : Nat) (hn : nfkdCp d = [d]) (hk : slugKeepP d)
    (hr : ¬ (pyIsSpaceP (lowerCp d) ∨ lowerCp d = 45)) :
    isWordP (lowerCp d) ∧ nfkdCp (lowerCp d) = [lowerCp d] ∧
      lowerCp (lowerCp d) = lowerCp d ∧ ¬ pyIsSpaceP (lowerCp d) := by
  rcases hk with hw | hsp | h45
  · rcases hw with h | h | h | h | h | h | h | h
    · have hld : lowerCp d = d := by
        unfold lowerCp
        rw [if_neg (by omega), if_neg (by omega), if_neg (by omega)]
      rw [hld]
      refine ⟨by unfold isWordP; omega, ?_, hld, by unfold pyIsSpaceP; omega⟩
      unfold nfkdCp
      rw [if_neg (by omega), if_neg (by omega)]
    · have hld : lowerCp d = d + 32 := by
        unfold lowerCp
        rw [if_pos (by omega)]
      rw [hld]
      refine ⟨by unfold isWordP; omega, ?_, ?_, by unfold pyIsSpaceP; omega⟩
      · unfold nfkdCp
        rw [if_neg (by omega), if_neg (by omega)]
      · unfold lowerCp
        rw [if_neg (by omega), if_neg (by omega), if_neg (by omega)]
    · have hld : lowerCp d = d := by
        unfold lowerCp
        rw [if_neg (by omega), if_neg (by omega), if_neg (by omega)]
      rw [hld]
      refine ⟨by unfold isWordP; omega, ?_, hld, by unfold pyIsSpaceP; omega⟩
      unfold nfkdCp
      rw [if_neg (by omega), if_neg (by omega)]
    · subst h
      exact ⟨by decide, by decide, by decide, by decide⟩
    · subst h
      rw [show nfkdCp 201 = [69, 769] from by decide] at hn
      exact absurd hn (by decide)
    · subst h
      rw [show nfkdCp 233 = [101, 769] from by decide] at hn
      exact absurd hn (by decide)
    · subst h
      exact ⟨by decide, by decide, by decide, by decide⟩
    · subst h
      exact ⟨by decide, by decide, by decide, by decide⟩
  · have h1 : ¬ (65 ≤ d ∧ d ≤ 90) := by unfold pyIsSpaceP at hsp; omega
    have h2 : d ≠ 201 := by unfold pyIsSpaceP at hsp; omega
    have h3 : d ≠ 216 := by unfold pyIsSpaceP at hsp; omega
    have hld : lowerCp d = d := by
      unfold lowerCp
      rw [if_neg h1, if_neg h2, if_neg h3]
    rw [hld] at hr
    exact absurd (Or.inl hsp) hr
  · subst h45
    exact absurd (Or.inr (by decide)) hr

theorem mem_of_mem_dropWhile (p : Nat → Bool) (l : List Nat) (c : Nat)
    (h : c ∈ l.dropWhile p) : c ∈ l := by
  induction l with
  | nil => simp at h
  | cons a r ih =>
    by_cases hp : p a = true
    · rw [List.dropWhile_cons_of_pos hp] at h
      exact List.mem_cons_of_mem _ (ih h)
    · rw [List.dropWhile_cons_of_neg hp] at h
      exact h

theorem mem_pyStrip (l : List Nat) (c : Nat) (h : c ∈ pyStrip l) : c ∈ l := by
  unfold pyStrip pyRstrip pyLstrip at h
  rw [List.mem_reverse] at h
  have h2 := mem_of_mem_dropWhile _ _ _ h
  rw [List.mem_reverse] at h2
  exact mem_of_mem_dropWhile _ _ _ h2

theorem mem_nfkd (l : List Nat) (d : Nat) (h : d ∈ nfkd l) :
    ∃ c ∈ l, d ∈ nfkdCp c := by
  unfold nfkd at h
  rw [List.mem_flatten] at h
  obtain ⟨L, hL, hd⟩ := h
  rw [List.mem_map] at hL
  obtain ⟨c, hc, rfl⟩ := hL
  exact ⟨c, hc, hd⟩

theorem flatten_map_eq_self (f : Nat → List Nat) :
    ∀ l : List Nat, (∀ c ∈ l, f c = [c]) → (l.map f).flatten = l := by
  intro l
  induction l with
  | nil => intro _; rfl
  | cons a r ih =>
    intro h
    rw [List.map_cons, List.flatten_cons, h a (List.mem_cons_self _ _),
      ih (fun c hc => h c (List.mem_cons_of_mem _ hc))]
    rfl

theorem filter_eq_self_of (p : Nat → Bool) :
    ∀ l : List Nat, (∀ c ∈ l, p c = true) → l.filter p = l := by
  intro l
  induction l with
  | nil => intro _; rfl
  | cons a r ih =>
    intro h
    rw [List.filter_cons_of_pos (h a (List.mem_cons_self _ _)),
      ih (fun c hc => h c (List.mem_cons_of_mem _ hc))]

theorem map_eq_self_of (f : Nat → Nat) :
    ∀ l : List Nat, (∀ c ∈ l, f c = c) → l.map f = l := by
  intro l
  induction l with
  | nil => intro _; rfl
  | cons a r ih =>
    intro h
    rw [List.map_cons, h a (List.mem_cons_self _ _),
      ih (fun c hc => h c (List.mem_cons_of_mem _ hc))]

theorem lstrip_eq_self_of (l : List Nat) (h : ∀ c ∈ l, ¬ pyIsSpaceP c) :
    pyLstrip l = l := by
  cases l with
  | nil => rfl
  | cons a r =>
    unfold pyLstrip
    rw [List.dropWhile_cons_of_neg]
    simp [pyIsSpaceB]
    exact h a (List.mem_cons_self _ _)

theorem strip_eq_self_of (l : List Nat) (h : ∀ c ∈ l, ¬ pyIsSpaceP c) :
    pyStrip l = l := by
  unfold pyStrip
  rw [lstrip_eq_self_of l h]
  unfold pyRstrip
  have hrev : ∀ c ∈ l.reverse, ¬ pyIsSpaceP c := by
    intro c hc
    exact h c (List.mem_reverse.mp hc)
  have : l.reverse.dropWhile pyIsSpaceB = l.reverse := by
    cases hl : l.reverse with
    | nil => rfl
    | cons a r =>
      rw [List.dropWhile_cons_of_neg]
      simp [pyIsSpaceB]
      exact hrev a (by rw [hl]; exact List.mem_cons_self _ _)
  rw [this, List.reverse_reverse]

theorem slugify_out (l : List Nat) :
    ∀ c ∈ slugify l,
      c = 45 ∨ (isWordP c ∧ nfkdCp c = [c] ∧ lowerCp c = c ∧
        ¬ pyIsSpaceP c ∧ c ≠ 45) := by
  intro c hc
  unfold slugify at hc
  rcases collapse_mem _ _ _ hc with h45 | ⟨hmem, hnr⟩
  · exact Or.inl h45
  · right
    rw [List.mem_map] at hmem
    obtain ⟨d, hd, rfl⟩ := hmem
    have hd2 : d ∈ (nfkd l).filter slugKeepB := mem_pyStrip _ _ hd
    rw [List.mem_filter] at hd2
    obtain ⟨hd3, hkB⟩ := hd2
    have hk : slugKeepP d := by simpa [slugKeepB] using hkB
    obtain ⟨c0, _, hdc⟩ := mem_nfkd _ _ hd3
    have hn : nfkdCp d = [d] := nfkdCp_mem c0 d hdc
    have hfacts := slug_char_facts d hn hk hnr
    exact ⟨hfacts.1, hfacts.2.1, hfacts.2.2.1, hfacts.2.2.2,
      fun h => hnr (Or.inr h)⟩

theorem slugify_fixed (s : List Nat)
    (hfacts : ∀ c ∈ s,
      c = 45 ∨ (isWordP c ∧ nfkdCp c = [c] ∧ lowerCp c = c ∧
        ¬ pyIsSpaceP c ∧ c ≠ 45))
    (hadj : noAdj45 s) : slugify s = s := by
  have hnospace : ∀ c ∈ s, ¬ pyIsSpaceP c := by
    intro c hc
    rcases hfacts c hc with rfl | ⟨_, _, _, hns, _⟩
    · decide
    · exact hns
  have h1 : nfkd s = s := by
    apply flatten_map_eq_self
    intro c hc
    rcases hfacts c hc with rfl | ⟨_, hn, _⟩
    · decide
    · exact hn
  have h2 : s.filter slugKeepB = s := by
    apply filter_eq_self_of
    intro c hc
    rcases hfacts c hc with rfl | ⟨hw, _⟩
    · decide
    · simp [slugKeepB, slugKeepP]
      exact Or.inl hw
  have h3 : pyStrip s = s := strip_eq_self_of s hnospace
  have h4 : s.map lowerCp = s := by
    apply map_eq_self_of
    intro c hc
    rcases hfacts c hc with rfl | ⟨_, _, hl, _⟩
    · decide
    · exact hl
  unfold slugify
  rw [h1, h2, h3, h4]
  exact collapse_id s false hnospace hadj (fun h => absurd h (by simp))

/-- C7: slugify is idempotent over all code point sequences, and the
accented example lowers, strips punctuation and hyphenates the space. -/
theorem claim_C7 :
    (∀ x : List Nat, slugify (slugify x) = slugify x) ∧
    slugify (codes ("Héllo, World!")) = codes ("hello-world") := by
  constructor
  · intro x
    have hadj : noAdj45 (slugify x) := by
      unfold slugify
      exact (collapse_noAdj _ false).1
    exact slugify_fixed (slugify x) (slugify_out x) hadj
  · decide
